import Mathlib

/-
Verification development for the osmo_jupyter dataset pipeline
(time-series combination, equilibration-boundary detection, pivoting and
filtering of experiment measurements).

The repository ships only the test suites for `osmo_jupyter.dataset` and
`osmo_jupyter.dataset.combine`; the operation bodies themselves are not
present.  Every operation below is therefore a shallow embedding modelled
from the specification (and cross-checked against the concrete expectations
pinned by the test suites).  Timestamps are embedded as natural numbers
(a canonical sortable instant), sensor values as rationals, statuses as
strings, and tables as lists of rows.
-/

namespace OsmoJupyter

/-- Modelled from the spec: the status-domain test `is_equilibrated`
(§4.3: only equality to the status value for the equilibrated state is
semantically meaningful). -/
def isEquilibrated (status : String) : Bool :=
  status == "equilibrated"

/-- Modelled from the spec: an EquilibrationInterval (§3), a pair
start_time ≤ end_time describing a maximal contiguous equilibrated run. -/
structure EquilibrationInterval where
  start_time : Nat
  end_time : Nat
deriving DecidableEq

/-- Modelled from the spec: the linear scan of §9 re-expressing the
edge-detection algorithm of §4.3 — a state machine over (timestamp,
is_equilibrated) pairs whose state is `none` (outside a run) or
`some (s, e)` (inside a run that started at `s` and whose last
equilibrated timestamp seen so far is `e`); it emits an interval on each
inside→outside transition and at end-of-input while inside. -/
def boundariesAux : List (Nat × Bool) → Option (Nat × Nat) → List EquilibrationInterval
  | [], none => []
  | [], some st => [⟨st.1, st.2⟩]
  | (t, b) :: rest, none =>
      if b then boundariesAux rest (some (t, t)) else boundariesAux rest none
  | (t, b) :: rest, some st =>
      if b then boundariesAux rest (some (st.1, t))
      else ⟨st.1, st.2⟩ :: boundariesAux rest none

/-- The run-state reached by the scan of `boundariesAux` after consuming a
list, used to reason about the scan over list concatenation. -/
def runState : List (Nat × Bool) → Option (Nat × Nat) → Option (Nat × Nat)
  | [], st => st
  | (t, b) :: rest, none => runState rest (if b then some (t, t) else none)
  | (t, b) :: rest, some st => runState rest (if b then some (st.1, t) else none)

/-- Modelled from the spec: `get_equilibration_boundaries` (§4.3), whose
implementation module is absent from the sources; it maps the status
series to (timestamp, is_equilibrated) pairs preserving order and emits
the maximal equilibrated runs as intervals. -/
def get_equilibration_boundaries (series : List (Nat × String)) : List EquilibrationInterval :=
  boundariesAux (series.map fun p => (p.1, isEquilibrated p.2)) none

end OsmoJupyter

namespace OsmoJupyter

/-- Modelled from the spec: stable insertion step of the timestamp sort of
§4.2 (stable sort ascending by the sort key; ties keep original order, so
an element is inserted before the first position whose key is not
smaller). -/
def insertBy (key : α → Nat) (p : α) : List α → List α
  | [] => [p]
  | q :: rest => if key q < key p then q :: insertBy key p rest else p :: q :: rest

/-- Modelled from the spec: the stable ascending sort by timestamp key used
when concatenated log sources are combined (§4.2). -/
def sortBy (key : α → Nat) : List α → List α
  | [] => []
  | p :: rest => insertBy key p (sortBy key rest)

/-- Helper for `dedupByKey`, carrying the set of keys already emitted. -/
def dedupByKeyAux [DecidableEq κ] (key : α → κ) : List κ → List α → List α
  | _, [] => []
  | seen, x :: rest =>
      if key x ∈ seen then dedupByKeyAux key seen rest
      else x :: dedupByKeyAux key (key x :: seen) rest

/-- Modelled from the spec: duplicate resolution of §4.2 — rows whose key
was already seen are dropped, keeping the first occurrence. -/
def dedupByKey [DecidableEq κ] (key : α → κ) (l : List α) : List α :=
  dedupByKeyAux key [] l

/-- Modelled from the spec: linear interpolation over time of a numeric
series (§4.2); a query outside the series' own sampled timestamp range is
undefined (`none`, the no-extrapolation contract), a query at a sample
returns that sample, and a query between two consecutive samples returns
the time-weighted linear blend. -/
def interpolateAt : List (Nat × ℚ) → Nat → Option ℚ
  | [], _ => none
  | [(t1, v1)], t => if t = t1 then some v1 else none
  | (t1, v1) :: (t2, v2) :: rest, t =>
      if t < t1 then none
      else if t = t1 then some v1
      else if t ≤ t2 then
        some (v1 + (v2 - v1) * (((t : ℚ) - (t1 : ℚ)) / ((t2 : ℚ) - (t1 : ℚ))))
      else interpolateAt ((t2, v2) :: rest) t

/-- A row of the combined sensor/status timeline: the calibration-log
timestamp, the categorical equilibration status carried over from the
calibration row, and the interpolated sensor temperature. -/
structure CombinedRow where
  timestamp : Nat
  equilibration_status : String
  temperature : ℚ
deriving DecidableEq

/-- Modelled from the spec: `open_and_combine_picolog_and_calibration_data`
(§4.2), whose implementation module is absent from the sources.  Each
argument is a list of already-parsed sources; the sources are concatenated,
stably sorted by timestamp and deduplicated keeping first occurrences, and
the output has one row per calibration timestamp at which the sensor
interpolation is defined, carrying the calibration status (forward-fill
onto the calibration series' own timestamps is the identity) and the
linearly interpolated sensor value. -/
def open_and_combine_picolog_and_calibration_data
    (calibration_log_filepaths : List (List (Nat × String)))
    (picolog_log_filepaths : List (List (Nat × ℚ))) : List CombinedRow :=
  (dedupByKey Prod.fst (sortBy Prod.fst calibration_log_filepaths.flatten)).filterMap
    fun p =>
      (interpolateAt (dedupByKey Prod.fst (sortBy Prod.fst picolog_log_filepaths.flatten))
          p.1).map
        fun v => ⟨p.1, p.2, v⟩

/-- Modelled from the spec: `filter_equilibrated_images` (§4.5), whose
implementation module is absent from the sources — keep exactly the rows
whose timestamp lies in the closed interval. -/
def filter_equilibrated_images (equilibration_range : EquilibrationInterval)
    (df : List (Nat × α)) : List (Nat × α) :=
  df.filter fun r =>
    decide (equilibration_range.start_time ≤ r.1 ∧ r.1 ≤ equilibration_range.end_time)

end OsmoJupyter

namespace OsmoJupyter

/-- Modelled from the spec: one ExperimentMeasurement row (§3) — one row
per (timestamp, image, region-of-interest, metric-type) carrying one
value. -/
structure Measurement where
  timestamp : Nat
  image : String
  roi : String
  metric : String
  value : ℚ
deriving DecidableEq

/-- A PivotedMeasurement row (§3): one row per (timestamp, image) whose
cells hold, for each requested region × metric combination, the optional
measured value (a missing combination is a missing-value marker, not an
error). -/
structure PivotRow where
  timestamp : Nat
  image : String
  cells : List (String × String × Option ℚ)
deriving DecidableEq

/-- The (timestamp, image) grouping key of the pivot step. -/
def measurementKey (m : Measurement) : Nat × String := (m.timestamp, m.image)

/-- The value measured for one (timestamp, image, region, metric)
combination: the first matching row's value, `none` when absent. -/
def lookupValue (df : List Measurement) (t : Nat) (img roi metric : String) : Option ℚ :=
  (df.find? fun m2 =>
    m2.timestamp == t && m2.image == img && m2.roi == roi && m2.metric == metric).map
    fun m2 => m2.value

/-- The cell list of one pivoted row: metric-major, region-minor, matching
the column layout pinned by the pivot test. -/
def pivotCells (df : List Measurement) (t : Nat) (img : String)
    (ROI_names msorm_types : List String) : List (String × String × Option ℚ) :=
  (msorm_types.map fun metric => ROI_names.map fun roi =>
    (roi, metric, lookupValue df t img roi metric)).flatten

/-- Modelled from the spec: `pivot_process_experiment_results_on_ROI`
(§4.4), whose implementation module is absent from the sources — one
output row per distinct (timestamp, image) pair, ordered by timestamp
ascending, with one cell per requested region × metric combination. -/
def pivot_process_experiment_results_on_ROI (experiment_df : List Measurement)
    (ROI_names msorm_types : List String) : List PivotRow :=
  (sortBy (fun m2 => m2.timestamp) (dedupByKey measurementKey experiment_df)).map
    fun m2 => ⟨m2.timestamp, m2.image,
      pivotCells experiment_df m2.timestamp m2.image ROI_names msorm_types⟩

/-- Modelled from the spec: the un-pivot of the §8 round-trip property —
grouping the region/metric cells back into long-format
(timestamp, image, region, metric, value) rows, dropping missing cells. -/
def unpivot_pivoted_results (rows : List PivotRow) : List Measurement :=
  (rows.map fun r => r.cells.filterMap fun c =>
    c.2.2.map fun v => Measurement.mk r.timestamp r.image c.1 c.2.1 v).flatten

/-- A row of the orchestrator's final dataset: the image identifier it is
indexed by, its timestamp, and the sensor temperature attached to it. -/
structure OutputRow where
  image : String
  timestamp : Nat
  temperature : ℚ
deriving DecidableEq

/-- Modelled from the spec: the orchestrator
`open_and_combine_and_filter_source_data` of the `osmo_jupyter.dataset`
generation (§4.6), whose implementation module is absent from the
sources — combine the logs, detect equilibration intervals from the
combined status series, filter the measurement rows to those intervals,
and attach to each surviving measurement timestamp the sensor value
interpolated from the (equally filtered) combined timeline, with the same
interpolation semantics as the combiner. -/
def open_and_combine_and_filter_source_data
    (calibration_log_filepaths : List (List (Nat × String)))
    (picolog_log_filepaths : List (List (Nat × ℚ)))
    (experiment_images : List (Nat × String)) : List OutputRow :=
  (List.map
    (fun iv =>
      (filter_equilibrated_images iv experiment_images).filterMap fun img =>
        (interpolateAt
          (filter_equilibrated_images iv
            ((open_and_combine_picolog_and_calibration_data calibration_log_filepaths
                picolog_log_filepaths).map
              fun r => (r.timestamp, r.temperature)))
          img.1).map
          fun v => ⟨img.2, img.1, v⟩)
    (get_equilibration_boundaries
      ((open_and_combine_picolog_and_calibration_data calibration_log_filepaths
          picolog_log_filepaths).map
        fun r => (r.timestamp, r.equilibration_status)))).flatten

/-- Modelled from the spec: the orchestrator of the
`osmo_jupyter.dataset.combine` generation, whose implementation module is
absent from the sources.  Its composition is the same, but its test pins
the raw sensor value (40, not 39.75) at a measurement timestamp that
coincides with a raw sample, so the sensor value attached to a surviving
measurement timestamp is interpolated from the raw concatenated, sorted
and deduplicated sensor series rather than from the combined timeline. -/
def combine_open_and_combine_and_filter_source_data
    (calibration_log_filepaths : List (List (Nat × String)))
    (picolog_log_filepaths : List (List (Nat × ℚ)))
    (experiment_images : List (Nat × String)) : List OutputRow :=
  (List.map
    (fun iv =>
      (filter_equilibrated_images iv experiment_images).filterMap fun img =>
        (interpolateAt
          (dedupByKey Prod.fst (sortBy Prod.fst picolog_log_filepaths.flatten))
          img.1).map
          fun v => ⟨img.2, img.1, v⟩)
    (get_equilibration_boundaries
      ((open_and_combine_picolog_and_calibration_data calibration_log_filepaths
          picolog_log_filepaths).map
        fun r => (r.timestamp, r.equilibration_status)))).flatten

/-- The calibration-log fixture of the test suites: statuses waiting,
equilibrated, equilibrated, waiting at seconds 0, 1, 3, 4. -/
def testCalibrationLog : List (List (Nat × String)) :=
  [[(0, "waiting"), (1, "equilibrated"), (3, "equilibrated"), (4, "waiting")]]

/-- The picolog fixture of the test suites: temperatures 39, 40, 40 at
seconds 0, 2, 4. -/
def testPicologData : List (List (Nat × ℚ)) := [[(0, 39), (2, 40), (4, 40)]]

/-- The experiment-image fixture of the test suites: image-0 at second 0
and image-1 at second 2. -/
def testExperimentImages : List (Nat × String) :=
  [(0, "image-0.jpeg"), (2, "image-1.jpeg")]

end OsmoJupyter

namespace OsmoJupyter

theorem boundariesAux_nil_none : boundariesAux [] none = [] := rfl

theorem boundariesAux_nil_some (st : Nat × Nat) :
    boundariesAux [] (some st) = [⟨st.1, st.2⟩] := rfl

theorem boundariesAux_cons_none (t : Nat) (b : Bool) (rest : List (Nat × Bool)) :
    boundariesAux ((t, b) :: rest) none =
      if b then boundariesAux rest (some (t, t)) else boundariesAux rest none := rfl

theorem boundariesAux_cons_some (t : Nat) (b : Bool) (rest : List (Nat × Bool))
    (st : Nat × Nat) :
    boundariesAux ((t, b) :: rest) (some st) =
      if b then boundariesAux rest (some (st.1, t))
      else ⟨st.1, st.2⟩ :: boundariesAux rest none := rfl

theorem runState_append (as bs : List (Nat × Bool)) (st : Option (Nat × Nat)) :
    runState (as ++ bs) st = runState bs (runState as st) := by
  induction as generalizing st with
  | nil => rfl
  | cons q rest ih =>
    obtain ⟨t, b⟩ := q
    cases st with
    | none => simpa [runState] using ih _
    | some p => simpa [runState] using ih _

theorem runState_single_false (t : Nat) (st : Option (Nat × Nat)) :
    runState [(t, false)] st = none := by
  cases st <;> rfl

theorem boundariesAux_append (as bs : List (Nat × Bool)) (st : Option (Nat × Nat))
    (h : runState as st = none) :
    boundariesAux (as ++ bs) st = boundariesAux as st ++ boundariesAux bs none := by
  induction as generalizing st with
  | nil =>
    have hst : st = none := h
    subst hst
    simp [boundariesAux]
  | cons q rest ih =>
    obtain ⟨t, b⟩ := q
    cases st with
    | none =>
      cases b with
      | false =>
        simp only [List.cons_append, boundariesAux_cons_none, if_neg Bool.false_ne_true]
        exact ih none (by simpa [runState] using h)
      | true =>
        simp only [List.cons_append, boundariesAux_cons_none, if_pos rfl]
        exact ih (some (t, t)) (by simpa [runState] using h)
    | some p =>
      cases b with
      | false =>
        simp only [List.cons_append, boundariesAux_cons_some, if_neg Bool.false_ne_true]
        rw [ih none (by simpa [runState] using h)]
      | true =>
        simp only [List.cons_append, boundariesAux_cons_some, if_pos rfl]
        exact ih (some (p.1, t)) (by simpa [runState] using h)

theorem boundariesAux_all_true_some (tr : List (Nat × Bool)) (s e : Nat)
    (h : ∀ p ∈ tr, p.2 = true) :
    boundariesAux tr (some (s, e)) = [⟨s, ((tr.getLast?).map (·.1)).getD e⟩] := by
  induction tr generalizing e with
  | nil => simp [boundariesAux]
  | cons q rest ih =>
    obtain ⟨t, b⟩ := q
    have hb : b = true := h (t, b) (List.mem_cons_self _ _)
    subst hb
    have hrest : ∀ p ∈ rest, p.2 = true := fun p hp => h p (List.mem_cons_of_mem _ hp)
    rw [boundariesAux_cons_some, if_pos rfl, ih t hrest]
    cases rest with
    | nil => simp
    | cons r rs =>
      have hs : (r :: rs).getLast?.isSome := by simp [List.getLast?_isSome]
      obtain ⟨x, hx⟩ := Option.isSome_iff_exists.mp hs
      simp [List.getLast?_cons_cons, hx]

theorem boundariesAux_all_false (bs : List (Nat × Bool))
    (h : ∀ p ∈ bs, p.2 = false) :
    boundariesAux bs none = [] := by
  induction bs with
  | nil => rfl
  | cons q rest ih =>
    obtain ⟨t, b⟩ := q
    have hb : b = false := h (t, b) (List.mem_cons_self _ _)
    subst hb
    rw [boundariesAux_cons_none, if_neg Bool.false_ne_true]
    exact ih fun p hp => h p (List.mem_cons_of_mem _ hp)

end OsmoJupyter

namespace OsmoJupyter

theorem boundariesAux_start_lb (bs : List (Nat × Bool)) (c : Nat) :
    ∀ st : Option (Nat × Nat), (∀ q ∈ bs, c < q.1) → (∀ p, st = some p → c < p.1) →
    ∀ iv ∈ boundariesAux bs st, c < iv.start_time := by
  induction bs with
  | nil =>
    intro st _ hst iv hiv
    cases st with
    | none => simp [boundariesAux] at hiv
    | some p =>
      rw [boundariesAux_nil_some] at hiv
      rw [List.mem_singleton.mp hiv]
      exact hst p rfl
  | cons q rest ih =>
    intro st hbs hst
    obtain ⟨t, b⟩ := q
    have hbs2 : ∀ q ∈ rest, c < q.1 := fun q hq => hbs q (List.mem_cons_of_mem _ hq)
    have hct : c < t := hbs (t, b) (List.mem_cons_self _ _)
    cases st with
    | none =>
      cases b with
      | true =>
        rw [boundariesAux_cons_none, if_pos rfl]
        exact ih (some (t, t)) hbs2 fun p h => by
          have h2 := Option.some.inj h; subst h2; exact hct
      | false =>
        rw [boundariesAux_cons_none, if_neg Bool.false_ne_true]
        exact ih none hbs2 fun p h => Option.noConfusion h
    | some p0 =>
      have hp0 : c < p0.1 := hst p0 rfl
      cases b with
      | true =>
        rw [boundariesAux_cons_some, if_pos rfl]
        exact ih (some (p0.1, t)) hbs2 fun p h => by
          have h2 := Option.some.inj h; subst h2; exact hp0
      | false =>
        rw [boundariesAux_cons_some, if_neg Bool.false_ne_true]
        intro iv hiv
        rcases List.mem_cons.mp hiv with rfl | hiv2
        · exact hp0
        · exact ih none hbs2 (fun p h => Option.noConfusion h) iv hiv2

theorem boundariesAux_start_le_end (bs : List (Nat × Bool)) :
    ∀ st : Option (Nat × Nat), bs.Pairwise (fun p q => p.1 < q.1) →
    (∀ p, st = some p → p.1 ≤ p.2 ∧ ∀ q ∈ bs, p.2 < q.1) →
    ∀ iv ∈ boundariesAux bs st, iv.start_time ≤ iv.end_time := by
  induction bs with
  | nil =>
    intro st _ hst iv hiv
    cases st with
    | none => simp [boundariesAux] at hiv
    | some p =>
      rw [boundariesAux_nil_some] at hiv
      rw [List.mem_singleton.mp hiv]
      exact (hst p rfl).1
  | cons q rest ih =>
    intro st hsorted hst
    obtain ⟨t, b⟩ := q
    rw [List.pairwise_cons] at hsorted
    obtain ⟨hhead, hrest⟩ := hsorted
    cases st with
    | none =>
      cases b with
      | true =>
        rw [boundariesAux_cons_none, if_pos rfl]
        exact ih (some (t, t)) hrest fun p h => by
          have h2 := Option.some.inj h; subst h2
          exact ⟨le_refl t, fun q hq => hhead q hq⟩
      | false =>
        rw [boundariesAux_cons_none, if_neg Bool.false_ne_true]
        exact ih none hrest fun p h => Option.noConfusion h
    | some p0 =>
      have hp0 := hst p0 rfl
      cases b with
      | true =>
        rw [boundariesAux_cons_some, if_pos rfl]
        exact ih (some (p0.1, t)) hrest fun p h => by
          have h2 := Option.some.inj h; subst h2
          refine ⟨le_trans hp0.1 (le_of_lt (hp0.2 (t, true) (List.mem_cons_self _ _))), ?_⟩
          exact fun q hq => hhead q hq
      | false =>
        rw [boundariesAux_cons_some, if_neg Bool.false_ne_true]
        intro iv hiv
        rcases List.mem_cons.mp hiv with rfl | hiv2
        · exact hp0.1
        · exact ih none hrest (fun p h => Option.noConfusion h) iv hiv2

theorem boundariesAux_disjoint_sorted (bs : List (Nat × Bool)) :
    ∀ st : Option (Nat × Nat), bs.Pairwise (fun p q => p.1 < q.1) →
    (∀ p, st = some p → p.1 ≤ p.2 ∧ ∀ q ∈ bs, p.2 < q.1) →
    (boundariesAux bs st).Pairwise fun i j => i.end_time < j.start_time := by
  induction bs with
  | nil =>
    intro st _ _
    cases st with
    | none => simp [boundariesAux]
    | some p => rw [boundariesAux_nil_some]; exact List.pairwise_singleton _ _
  | cons q rest ih =>
    intro st hsorted hst
    obtain ⟨t, b⟩ := q
    rw [List.pairwise_cons] at hsorted
    obtain ⟨hhead, hrest⟩ := hsorted
    cases st with
    | none =>
      cases b with
      | true =>
        rw [boundariesAux_cons_none, if_pos rfl]
        exact ih (some (t, t)) hrest fun p h => by
          have h2 := Option.some.inj h; subst h2
          exact ⟨le_refl t, fun q hq => hhead q hq⟩
      | false =>
        rw [boundariesAux_cons_none, if_neg Bool.false_ne_true]
        exact ih none hrest fun p h => Option.noConfusion h
    | some p0 =>
      have hp0 := hst p0 rfl
      cases b with
      | true =>
        rw [boundariesAux_cons_some, if_pos rfl]
        exact ih (some (p0.1, t)) hrest fun p h => by
          have h2 := Option.some.inj h; subst h2
          refine ⟨le_trans hp0.1 (le_of_lt (hp0.2 (t, true) (List.mem_cons_self _ _))), ?_⟩
          exact fun q hq => hhead q hq
      | false =>
        rw [boundariesAux_cons_some, if_neg Bool.false_ne_true]
        rw [List.pairwise_cons]
        constructor
        · intro iv hiv
          exact boundariesAux_start_lb rest p0.2 none
            (fun q hq => hp0.2 q (List.mem_cons_of_mem _ hq))
            (fun p h => Option.noConfusion h) iv hiv
        · exact ih none hrest fun p h => Option.noConfusion h

theorem boundariesAux_false_outside (bs : List (Nat × Bool)) :
    ∀ st : Option (Nat × Nat), bs.Pairwise (fun p q => p.1 < q.1) →
    (∀ p, st = some p → p.1 ≤ p.2 ∧ ∀ q ∈ bs, p.2 < q.1) →
    ∀ u, (u, false) ∈ bs →
    ∀ iv ∈ boundariesAux bs st, ¬(iv.start_time ≤ u ∧ u ≤ iv.end_time) := by
  induction bs with
  | nil => intro st _ _ u hu; simp at hu
  | cons q rest ih =>
    intro st hsorted hst u hu
    obtain ⟨t, b⟩ := q
    rw [List.pairwise_cons] at hsorted
    obtain ⟨hhead, hrest⟩ := hsorted
    rcases List.mem_cons.mp hu with hhd | htl
    · obtain ⟨rfl, hb⟩ : u = t ∧ false = b := by simpa [Prod.ext_iff] using hhd
      subst hb
      cases st with
      | none =>
        rw [boundariesAux_cons_none, if_neg Bool.false_ne_true]
        intro iv hiv hcon
        have hlb := boundariesAux_start_lb rest u none (fun q hq => hhead q hq)
          (fun p h => Option.noConfusion h) iv hiv
        exact absurd hcon.1 (not_le.mpr hlb)
      | some p0 =>
        have hp0 := hst p0 rfl
        rw [boundariesAux_cons_some, if_neg Bool.false_ne_true]
        intro iv hiv hcon
        rcases List.mem_cons.mp hiv with rfl | hiv2
        · have hlt : p0.2 < u := hp0.2 (u, false) (List.mem_cons_self _ _)
          exact absurd hcon.2 (not_le.mpr hlt)
        · have hlb := boundariesAux_start_lb rest u none (fun q hq => hhead q hq)
            (fun p h => Option.noConfusion h) iv hiv2
          exact absurd hcon.1 (not_le.mpr hlb)
    · cases st with
      | none =>
        cases b with
        | true =>
          rw [boundariesAux_cons_none, if_pos rfl]
          exact ih (some (t, t)) hrest (fun p h => by
            have h2 := Option.some.inj h; subst h2
            exact ⟨le_refl t, fun q hq => hhead q hq⟩) u htl
        | false =>
          rw [boundariesAux_cons_none, if_neg Bool.false_ne_true]
          exact ih none hrest (fun p h => Option.noConfusion h) u htl
      | some p0 =>
        have hp0 := hst p0 rfl
        cases b with
        | true =>
          rw [boundariesAux_cons_some, if_pos rfl]
          exact ih (some (p0.1, t)) hrest (fun p h => by
            have h2 := Option.some.inj h; subst h2
            refine ⟨le_trans hp0.1 (le_of_lt (hp0.2 (t, true) (List.mem_cons_self _ _))), ?_⟩
            exact fun q hq => hhead q hq) u htl
        | false =>
          rw [boundariesAux_cons_some, if_neg Bool.false_ne_true]
          intro iv hiv hcon
          rcases List.mem_cons.mp hiv with rfl | hiv2
          · have h1 : p0.2 < t := hp0.2 (t, false) (List.mem_cons_self _ _)
            have h2 : t < u := hhead (u, false) htl
            exact absurd hcon.2 (not_le.mpr (lt_trans h1 h2))
          · exact ih none hrest (fun p h => Option.noConfusion h) u htl iv hiv2 hcon

theorem boundariesAux_some_head (bs : List (Nat × Bool)) (s : Nat) :
    ∀ e, bs.Pairwise (fun p q => p.1 < q.1) → (∀ q ∈ bs, e < q.1) →
    ∃ e2 r2, e ≤ e2 ∧ boundariesAux bs (some (s, e)) = ⟨s, e2⟩ :: r2 := by
  induction bs with
  | nil => intro e _ _; exact ⟨e, [], le_refl e, rfl⟩
  | cons q rest ih =>
    intro e hsorted hbs
    obtain ⟨t, b⟩ := q
    rw [List.pairwise_cons] at hsorted
    obtain ⟨hhead, hrest⟩ := hsorted
    cases b with
    | true =>
      rw [boundariesAux_cons_some, if_pos rfl]
      obtain ⟨e2, r2, he, heq⟩ := ih t hrest fun q hq => hhead q hq
      exact ⟨e2, r2, le_trans (le_of_lt (hbs (t, true) (List.mem_cons_self _ _))) he, heq⟩
    | false =>
      rw [boundariesAux_cons_some, if_neg Bool.false_ne_true]
      exact ⟨e, boundariesAux rest none, le_refl e, rfl⟩

theorem boundariesAux_covers (bs : List (Nat × Bool)) :
    ∀ st : Option (Nat × Nat), bs.Pairwise (fun p q => p.1 < q.1) →
    (∀ p, st = some p → p.1 ≤ p.2 ∧ ∀ q ∈ bs, p.2 < q.1) →
    ∀ u, (u, true) ∈ bs →
    ∃ iv ∈ boundariesAux bs st, iv.start_time ≤ u ∧ u ≤ iv.end_time := by
  induction bs with
  | nil => intro st _ _ u hu; simp at hu
  | cons q rest ih =>
    intro st hsorted hst u hu
    obtain ⟨t, b⟩ := q
    rw [List.pairwise_cons] at hsorted
    obtain ⟨hhead, hrest⟩ := hsorted
    rcases List.mem_cons.mp hu with hhd | htl
    · obtain ⟨rfl, hb⟩ : u = t ∧ true = b := by simpa [Prod.ext_iff] using hhd
      subst hb
      cases st with
      | none =>
        rw [boundariesAux_cons_none, if_pos rfl]
        obtain ⟨e2, r2, he, heq⟩ := boundariesAux_some_head rest u u hrest
          fun q hq => hhead q hq
        rw [heq]
        exact ⟨⟨u, e2⟩, List.mem_cons_self _ _, le_refl u, he⟩
      | some p0 =>
        have hp0 := hst p0 rfl
        rw [boundariesAux_cons_some, if_pos rfl]
        obtain ⟨e2, r2, he, heq⟩ := boundariesAux_some_head rest p0.1 u hrest
          fun q hq => hhead q hq
        rw [heq]
        refine ⟨⟨p0.1, e2⟩, List.mem_cons_self _ _, ?_, he⟩
        exact le_trans hp0.1 (le_of_lt (hp0.2 (u, true) (List.mem_cons_self _ _)))
    · cases st with
      | none =>
        cases b with
        | true =>
          rw [boundariesAux_cons_none, if_pos rfl]
          exact ih (some (t, t)) hrest (fun p h => by
            have h2 := Option.some.inj h; subst h2
            exact ⟨le_refl t, fun q hq => hhead q hq⟩) u htl
        | false =>
          rw [boundariesAux_cons_none, if_neg Bool.false_ne_true]
          exact ih none hrest (fun p h => Option.noConfusion h) u htl
      | some p0 =>
        have hp0 := hst p0 rfl
        cases b with
        | true =>
          rw [boundariesAux_cons_some, if_pos rfl]
          exact ih (some (p0.1, t)) hrest (fun p h => by
            have h2 := Option.some.inj h; subst h2
            refine ⟨le_trans hp0.1 (le_of_lt (hp0.2 (t, true) (List.mem_cons_self _ _))), ?_⟩
            exact fun q hq => hhead q hq) u htl
        | false =>
          rw [boundariesAux_cons_some, if_neg Bool.false_ne_true]
          obtain ⟨iv, hiv, hP⟩ := ih none hrest (fun p h => Option.noConfusion h) u htl
          exact ⟨iv, List.mem_cons_of_mem _ hiv, hP⟩

end OsmoJupyter

namespace OsmoJupyter

theorem isEquilibrated_true_iff (s : String) :
    isEquilibrated s = true ↔ s = "equilibrated" := by
  simp [isEquilibrated]

theorem isEquilibrated_false_iff (s : String) :
    isEquilibrated s = false ↔ s ≠ "equilibrated" := by
  simp [isEquilibrated]

/-- C1: for every time-sorted equilibration-status series,
`get_equilibration_boundaries` returns intervals with start_time ≤ end_time,
pairwise non-overlapping and sorted ascending by start_time; every input
element whose timestamp lies within a returned interval has the equilibrated
status, and every input element strictly between the end of one returned
interval and the start of the next is not equilibrated. -/
theorem get_equilibration_boundaries_correct (series : List (Nat × String))
    (hsorted : series.Pairwise fun p q => p.1 < q.1) :
    (∀ iv ∈ get_equilibration_boundaries series, iv.start_time ≤ iv.end_time) ∧
    ((get_equilibration_boundaries series).Pairwise fun i j => i.end_time < j.start_time) ∧
    (∀ p ∈ series, ∀ iv ∈ get_equilibration_boundaries series,
      iv.start_time ≤ p.1 → p.1 ≤ iv.end_time → p.2 = "equilibrated") ∧
    (∀ p ∈ series, ∀ i j : Fin (get_equilibration_boundaries series).length,
      (j : Nat) = (i : Nat) + 1 →
      ((get_equilibration_boundaries series).get i).end_time < p.1 →
      p.1 < ((get_equilibration_boundaries series).get j).start_time →
      p.2 ≠ "equilibrated") := by
  have hmap : (series.map fun p => (p.1, isEquilibrated p.2)).Pairwise
      fun p q => p.1 < q.1 := by
    rw [List.pairwise_map]
    exact hsorted
  have hstnone : ∀ p : Nat × Nat, (none : Option (Nat × Nat)) = some p →
      p.1 ≤ p.2 ∧ ∀ q ∈ series.map fun p => (p.1, isEquilibrated p.2), p.2 < q.1 :=
    fun p h => Option.noConfusion h
  have hr : get_equilibration_boundaries series =
      boundariesAux (series.map fun p => (p.1, isEquilibrated p.2)) none := rfl
  have hle : ∀ iv ∈ get_equilibration_boundaries series,
      iv.start_time ≤ iv.end_time := by
    rw [hr]
    exact boundariesAux_start_le_end _ none hmap hstnone
  have hpw : (get_equilibration_boundaries series).Pairwise
      fun i j => i.end_time < j.start_time := by
    rw [hr]
    exact boundariesAux_disjoint_sorted _ none hmap hstnone
  refine ⟨hle, hpw, ?_, ?_⟩
  · intro p hp iv hiv h1 h2
    by_contra hne
    have hbf : isEquilibrated p.2 = false := (isEquilibrated_false_iff p.2).mpr hne
    have hmem : (p.1, false) ∈ series.map fun p => (p.1, isEquilibrated p.2) :=
      List.mem_map.mpr ⟨p, hp, by rw [hbf]⟩
    rw [hr] at hiv
    exact boundariesAux_false_outside _ none hmap hstnone p.1 hmem iv hiv ⟨h1, h2⟩
  · intro p hp i j hij hlt1 hlt2 heq
    have hbt : isEquilibrated p.2 = true := (isEquilibrated_true_iff p.2).mpr heq
    have hmem : (p.1, true) ∈ series.map fun p => (p.1, isEquilibrated p.2) :=
      List.mem_map.mpr ⟨p, hp, by rw [hbt]⟩
    obtain ⟨iv, hiv, hs1, hs2⟩ := boundariesAux_covers _ none hmap hstnone p.1 hmem
    rw [← hr] at hiv
    obtain ⟨k, hk⟩ := List.mem_iff_get.mp hiv
    have hpg := List.pairwise_iff_get.mp hpw
    rcases Nat.lt_trichotomy (k : Nat) (i : Nat) with hki | hki | hki
    · have h3 := hpg k i (Fin.lt_def.mpr hki)
      have h4 := hle _ (List.get_mem _ i.1 i.2)
      simp only [Fin.eta] at h4
      rw [hk] at h3
      omega
    · have hk2 : k = i := Fin.ext hki
      subst hk2
      rw [hk] at hlt1
      omega
    · have hjk : (j : Nat) ≤ (k : Nat) := by omega
      rcases eq_or_lt_of_le hjk with hjk2 | hjk2
      · have hk2 : j = k := Fin.ext hjk2
        subst hk2
        rw [hk] at hlt2
        omega
      · have h3 := hpg j k (Fin.lt_def.mpr hjk2)
        have h4 := hle _ (List.get_mem _ j.1 j.2)
        simp only [Fin.eta] at h4
        rw [hk] at h3
        omega

/-- Witness for C1 at the concrete series of the first boundary test case. -/
theorem get_equilibration_boundaries_correct_witness :
    ([((0 : Nat), "waiting"), (1, "equilibrated"), (2, "equilibrated"),
        (3, "waiting")].Pairwise fun p q => p.1 < q.1) ∧
    ((∀ iv ∈ get_equilibration_boundaries
        [(0, "waiting"), (1, "equilibrated"), (2, "equilibrated"), (3, "waiting")],
        iv.start_time ≤ iv.end_time) ∧
      ((get_equilibration_boundaries
        [(0, "waiting"), (1, "equilibrated"), (2, "equilibrated"), (3, "waiting")]).Pairwise
          fun i j => i.end_time < j.start_time) ∧
      (∀ p ∈ [((0 : Nat), "waiting"), (1, "equilibrated"), (2, "equilibrated"),
          (3, "waiting")],
        ∀ iv ∈ get_equilibration_boundaries
          [(0, "waiting"), (1, "equilibrated"), (2, "equilibrated"), (3, "waiting")],
        iv.start_time ≤ p.1 → p.1 ≤ iv.end_time → p.2 = "equilibrated") ∧
      (∀ p ∈ [((0 : Nat), "waiting"), (1, "equilibrated"), (2, "equilibrated"),
          (3, "waiting")],
        ∀ i j : Fin (get_equilibration_boundaries
          [(0, "waiting"), (1, "equilibrated"), (2, "equilibrated"),
            (3, "waiting")]).length,
        (j : Nat) = (i : Nat) + 1 →
        ((get_equilibration_boundaries
          [(0, "waiting"), (1, "equilibrated"), (2, "equilibrated"),
            (3, "waiting")]).get i).end_time < p.1 →
        p.1 < ((get_equilibration_boundaries
          [(0, "waiting"), (1, "equilibrated"), (2, "equilibrated"),
            (3, "waiting")]).get j).start_time →
        p.2 ≠ "equilibrated")) :=
  ⟨by decide, get_equilibration_boundaries_correct _ (by decide)⟩

/-- C2: a series that ends inside an equilibrated run still reports the run
as exactly one interval, closed at the timestamp of the last equilibrated
element; with a single trailing equilibrated point the interval is
degenerate (start_time = end_time). -/
theorem get_equilibration_boundaries_trailing_run
    (xs : List (Nat × String)) (t0 : Nat) (s0 : String) (rest : List (Nat × String))
    (hrun : ∀ p ∈ (t0, s0) :: rest, p.2 = "equilibrated")
    (hxs : ∀ p, xs.getLast? = some p → p.2 ≠ "equilibrated") :
    get_equilibration_boundaries (xs ++ (t0, s0) :: rest) =
      get_equilibration_boundaries xs ++
        [⟨t0, ((rest.getLast?).map (·.1)).getD t0⟩] := by
  have hclosed : runState (xs.map fun p => (p.1, isEquilibrated p.2)) none = none := by
    rcases List.eq_nil_or_concat xs with rfl | ⟨ys, q, rfl⟩
    · rfl
    · rw [List.concat_eq_append] at hxs
      have hq : q.2 ≠ "equilibrated" := hxs q (by rw [List.getLast?_concat])
      have hqf : isEquilibrated q.2 = false := (isEquilibrated_false_iff q.2).mpr hq
      rw [List.concat_eq_append, List.map_append, runState_append]
      simp only [List.map_cons, List.map_nil, hqf]
      exact runState_single_false q.1 _
  have hs0 : isEquilibrated s0 = true :=
    (isEquilibrated_true_iff s0).mpr (hrun (t0, s0) (List.mem_cons_self _ _))
  have htr : ∀ p ∈ rest.map fun p => (p.1, isEquilibrated p.2), p.2 = true := by
    intro p hp
    obtain ⟨p0, hp0, rfl⟩ := List.mem_map.mp hp
    exact (isEquilibrated_true_iff p0.2).mpr (hrun p0 (List.mem_cons_of_mem _ hp0))
  have hmain : get_equilibration_boundaries (xs ++ (t0, s0) :: rest) =
      get_equilibration_boundaries xs ++
        boundariesAux ((t0, true) :: rest.map fun p => (p.1, isEquilibrated p.2)) none := by
    show boundariesAux (((xs ++ (t0, s0) :: rest)).map fun p => (p.1, isEquilibrated p.2)) none = _
    rw [List.map_append, boundariesAux_append _ _ none hclosed]
    simp only [List.map_cons, hs0]
    rfl
  rw [hmain, boundariesAux_cons_none, if_pos rfl,
    boundariesAux_all_true_some _ t0 t0 htr]
  have hgl : (((rest.map fun p => (p.1, isEquilibrated p.2)).getLast?).map (·.1)) =
      ((rest.getLast?).map (·.1)) := by
    rw [List.getLast?_map, Option.map_map]
    rfl
  rw [hgl]

/-- Witness for C2: a trailing run of two equilibrated points after a
non-equilibrated prefix, and (second conjunct) a single trailing
equilibrated point producing a degenerate interval. -/
theorem get_equilibration_boundaries_trailing_run_witness :
    (get_equilibration_boundaries
        [(0, "waiting"), (1, "equilibrated"), (2, "equilibrated")] =
      get_equilibration_boundaries [(0, "waiting")] ++ [⟨1, 2⟩]) ∧
    (get_equilibration_boundaries [(0, "waiting"), (1, "equilibrated")] =
      get_equilibration_boundaries [(0, "waiting")] ++ [⟨1, 1⟩]) :=
  ⟨get_equilibration_boundaries_trailing_run [(0, "waiting")] 1 "equilibrated"
      [(2, "equilibrated")] (by decide) (by decide),
    get_equilibration_boundaries_trailing_run [(0, "waiting")] 1 "equilibrated"
      [] (by decide) (by decide)⟩

/-- C8: a status series with no equilibrated element yields the empty
interval list — a valid, well-typed empty result (the result type is
`List EquilibrationInterval`, so the empty output still carries the
start_time/end_time shape), not an error. -/
theorem get_equilibration_boundaries_empty (series : List (Nat × String))
    (h : ∀ p ∈ series, p.2 ≠ "equilibrated") :
    get_equilibration_boundaries series = ([] : List EquilibrationInterval) := by
  apply boundariesAux_all_false
  intro p hp
  obtain ⟨p0, hp0, rfl⟩ := List.mem_map.mp hp
  exact (isEquilibrated_false_iff p0.2).mpr (h p0 hp0)

/-- Witness for C8 at a concrete never-equilibrated series. -/
theorem get_equilibration_boundaries_empty_witness :
    get_equilibration_boundaries [(0, "waiting"), (1, "waiting"), (2, "other")] =
      ([] : List EquilibrationInterval) :=
  get_equilibration_boundaries_empty
    [(0, "waiting"), (1, "waiting"), (2, "other")] (by decide)

end OsmoJupyter

namespace OsmoJupyter

theorem insertBy_perm (key : α → Nat) (p : α) (l : List α) :
    (insertBy key p l).Perm (p :: l) := by
  induction l with
  | nil => exact List.Perm.refl _
  | cons q rest ih =>
    by_cases h : key q < key p
    · rw [insertBy, if_pos h]
      exact (ih.cons q).trans (List.Perm.swap p q rest)
    · rw [insertBy, if_neg h]

theorem sortBy_perm (key : α → Nat) (l : List α) : (sortBy key l).Perm l := by
  induction l with
  | nil => exact List.Perm.refl _
  | cons p rest ih => exact (insertBy_perm key p (sortBy key rest)).trans (ih.cons p)

theorem insertBy_sorted (key : α → Nat) (p : α) (l : List α)
    (h : l.Pairwise fun a b => key a ≤ key b) :
    (insertBy key p l).Pairwise fun a b => key a ≤ key b := by
  induction l with
  | nil => exact List.pairwise_singleton _ _
  | cons q rest ih =>
    rw [List.pairwise_cons] at h
    obtain ⟨hq, hrest⟩ := h
    by_cases hlt : key q < key p
    · rw [insertBy, if_pos hlt]
      rw [List.pairwise_cons]
      refine ⟨?_, ih hrest⟩
      intro b hb
      rcases List.mem_cons.mp ((insertBy_perm key p rest).mem_iff.mp hb) with rfl | hb2
      · exact le_of_lt hlt
      · exact hq b hb2
    · rw [insertBy, if_neg hlt]
      rw [List.pairwise_cons]
      refine ⟨?_, List.pairwise_cons.mpr ⟨hq, hrest⟩⟩
      intro b hb
      rcases List.mem_cons.mp hb with rfl | hb2
      · exact le_of_not_lt hlt
      · exact le_trans (le_of_not_lt hlt) (hq b hb2)

theorem sortBy_sorted (key : α → Nat) (l : List α) :
    (sortBy key l).Pairwise fun a b => key a ≤ key b := by
  induction l with
  | nil => exact List.Pairwise.nil
  | cons p rest ih => exact insertBy_sorted key p (sortBy key rest) ih

theorem insertBy_find?_self (key : α → Nat) (p : α) (l : List α) (t : Nat)
    (hp : key p = t) :
    (insertBy key p l).find? (fun a => key a == t) = some p := by
  induction l with
  | nil => simp [insertBy, List.find?, hp]
  | cons q rest ih =>
    by_cases hlt : key q < key p
    · rw [insertBy, if_pos hlt]
      have hq : (key q == t) = false := by
        rw [beq_eq_false_iff_ne]
        omega
      rw [List.find?, hq]
      exact ih
    · rw [insertBy, if_neg hlt]
      have hp2 : (key p == t) = true := by rw [beq_iff_eq]; exact hp
      rw [List.find?, hp2]

theorem insertBy_find?_other (key : α → Nat) (p : α) (l : List α) (t : Nat)
    (hp : key p ≠ t) :
    (insertBy key p l).find? (fun a => key a == t) = l.find? (fun a => key a == t) := by
  have hp2 : (key p == t) = false := by rw [beq_eq_false_iff_ne]; exact hp
  induction l with
  | nil => simp [insertBy, List.find?, hp2]
  | cons q rest ih =>
    by_cases hlt : key q < key p
    · rw [insertBy, if_pos hlt]
      by_cases hq : key q = t
      · have hq2 : (key q == t) = true := by rw [beq_iff_eq]; exact hq
        rw [List.find?, hq2, List.find?, hq2]
      · have hq2 : (key q == t) = false := by rw [beq_eq_false_iff_ne]; exact hq
        rw [List.find?, hq2, List.find?, hq2]
        exact ih
    · rw [insertBy, if_neg hlt, List.find?, hp2]

theorem sortBy_find? (key : α → Nat) (l : List α) (t : Nat) :
    (sortBy key l).find? (fun a => key a == t) = l.find? (fun a => key a == t) := by
  induction l with
  | nil => rfl
  | cons p rest ih =>
    by_cases hp : key p = t
    · rw [sortBy, insertBy_find?_self key p _ t hp]
      have hp2 : (key p == t) = true := by rw [beq_iff_eq]; exact hp
      rw [List.find?, hp2]
    · rw [sortBy, insertBy_find?_other key p _ t hp, ih]
      have hp2 : (key p == t) = false := by rw [beq_eq_false_iff_ne]; exact hp
      rw [List.find?, hp2]

theorem dedupByKeyAux_sublist [DecidableEq κ] (key : α → κ) (l : List α) :
    ∀ seen, (dedupByKeyAux key seen l).Sublist l := by
  induction l with
  | nil => intro seen; exact List.Sublist.refl _
  | cons x rest ih =>
    intro seen
    by_cases h : key x ∈ seen
    · rw [dedupByKeyAux, if_pos h]
      exact (ih seen).cons x
    · rw [dedupByKeyAux, if_neg h]
      exact (ih (key x :: seen)).cons₂ x

theorem dedupByKeyAux_not_seen [DecidableEq κ] (key : α → κ) (l : List α) :
    ∀ seen, ∀ x ∈ dedupByKeyAux key seen l, key x ∉ seen := by
  induction l with
  | nil => intro seen x hx; simp [dedupByKeyAux] at hx
  | cons y rest ih =>
    intro seen x hx
    by_cases h : key y ∈ seen
    · rw [dedupByKeyAux, if_pos h] at hx
      exact ih seen x hx
    · rw [dedupByKeyAux, if_neg h] at hx
      rcases List.mem_cons.mp hx with rfl | hx2
      · exact h
      · have := ih (key y :: seen) x hx2
        exact fun hc => this (List.mem_cons_of_mem _ hc)

theorem dedupByKeyAux_pairwise_ne [DecidableEq κ] (key : α → κ) (l : List α) :
    ∀ seen, (dedupByKeyAux key seen l).Pairwise fun a b => key a ≠ key b := by
  induction l with
  | nil => intro seen; exact List.Pairwise.nil
  | cons y rest ih =>
    intro seen
    by_cases h : key y ∈ seen
    · rw [dedupByKeyAux, if_pos h]
      exact ih seen
    · rw [dedupByKeyAux, if_neg h]
      rw [List.pairwise_cons]
      refine ⟨?_, ih (key y :: seen)⟩
      intro b hb
      have := dedupByKeyAux_not_seen key rest (key y :: seen) b hb
      intro hc
      exact this (by rw [← hc]; exact List.mem_cons_self _ _)

theorem dedupByKeyAux_mem_find? [DecidableEq κ] (key : α → κ) (l : List α) :
    ∀ seen, ∀ x ∈ dedupByKeyAux key seen l,
      l.find? (fun a => key a == key x) = some x := by
  induction l with
  | nil => intro seen x hx; simp [dedupByKeyAux] at hx
  | cons y rest ih =>
    intro seen x hx
    by_cases h : key y ∈ seen
    · rw [dedupByKeyAux, if_pos h] at hx
      have hne : key y ≠ key x := by
        intro hc
        exact dedupByKeyAux_not_seen key rest seen x hx (by rw [← hc]; exact h)
      have hy : (key y == key x) = false := by rw [beq_eq_false_iff_ne]; exact hne
      rw [List.find?, hy]
      exact ih seen x hx
    · rw [dedupByKeyAux, if_neg h] at hx
      rcases List.mem_cons.mp hx with rfl | hx2
      · have hy : (key x == key x) = true := by rw [beq_iff_eq]
        rw [List.find?, hy]
      · have hmem := dedupByKeyAux_not_seen key rest (key y :: seen) x hx2
        have hne : key y ≠ key x := by
          intro hc
          exact hmem (by rw [← hc]; exact List.mem_cons_self _ _)
        have hy : (key y == key x) = false := by rw [beq_eq_false_iff_ne]; exact hne
        rw [List.find?, hy]
        exact ih (key y :: seen) x hx2

theorem dedupByKeyAux_keys [DecidableEq κ] (key : α → κ) (l : List α) :
    ∀ seen, ∀ k, k ∉ seen →
      (k ∈ (dedupByKeyAux key seen l).map key ↔ k ∈ l.map key) := by
  induction l with
  | nil => intro seen k _; simp [dedupByKeyAux]
  | cons y rest ih =>
    intro seen k hk
    by_cases h : key y ∈ seen
    · rw [dedupByKeyAux, if_pos h]
      rw [List.map_cons, List.mem_cons]
      rw [ih seen k hk]
      constructor
      · exact fun h2 => Or.inr h2
      · rintro (rfl | h2)
        · exact absurd h hk
        · exact h2
    · rw [dedupByKeyAux, if_neg h]
      rw [List.map_cons, List.map_cons, List.mem_cons, List.mem_cons]
      by_cases hky : k = key y
      · subst hky
        exact ⟨fun _ => Or.inl rfl, fun _ => Or.inl rfl⟩
      · have hk2 : k ∉ key y :: seen := by
          intro hc
          rcases List.mem_cons.mp hc with hc2 | hc2
          · exact hky hc2
          · exact hk hc2
        rw [ih (key y :: seen) k hk2]

theorem dedupByKey_keys [DecidableEq κ] (key : α → κ) (l : List α) (k : κ) :
    k ∈ (dedupByKey key l).map key ↔ k ∈ l.map key :=
  dedupByKeyAux_keys key l [] k (List.not_mem_nil k)

end OsmoJupyter

namespace OsmoJupyter

/-- C6: `filter_equilibrated_images` returns exactly the rows whose
timestamp lies in the closed interval [start_time, end_time], preserving
the original row order (the output is a sublist of the input), and removes
every row outside the interval (multiplicity-exact characterization). -/
theorem filter_equilibrated_images_correct {α : Type} [DecidableEq α]
    (rng : EquilibrationInterval) (df : List (Nat × α)) :
    (filter_equilibrated_images rng df).Sublist df ∧
    (∀ r ∈ filter_equilibrated_images rng df,
      rng.start_time ≤ r.1 ∧ r.1 ≤ rng.end_time) ∧
    (∀ r : Nat × α,
      (filter_equilibrated_images rng df).count r =
        if rng.start_time ≤ r.1 ∧ r.1 ≤ rng.end_time then df.count r else 0) := by
  have hdef : filter_equilibrated_images rng df =
      df.filter fun r =>
        decide (rng.start_time ≤ r.1 ∧ r.1 ≤ rng.end_time) := rfl
  refine ⟨?_, ?_, ?_⟩
  · rw [hdef]
    exact List.filter_sublist df
  · intro r hr
    rw [hdef] at hr
    have hb := List.of_mem_filter hr
    exact of_decide_eq_true hb
  · intro r
    rw [hdef]
    by_cases h : rng.start_time ≤ r.1 ∧ r.1 ≤ rng.end_time
    · rw [if_pos h]
      exact List.count_filter (decide_eq_true h)
    · rw [if_neg h]
      rw [List.count_eq_zero]
      intro hmem
      have hb := List.of_mem_filter hmem
      exact h (of_decide_eq_true hb)

/-- Witness for C6: the filter test scenario (interval day 2 … day 4 keeps
only the day-3 row, as a sublist of the input). -/
theorem filter_equilibrated_images_correct_witness :
    (filter_equilibrated_images ⟨2, 4⟩
        [(1, "image-0.jpeg"), (3, "image-1.jpeg")]).Sublist
      [(1, "image-0.jpeg"), (3, "image-1.jpeg")] :=
  (filter_equilibrated_images_correct ⟨2, 4⟩
    [(1, "image-0.jpeg"), (3, "image-1.jpeg")]).1

theorem pairwise_lt_of_le_of_ne (key : α → Nat) (l : List α)
    (h1 : l.Pairwise fun a b => key a ≤ key b)
    (h2 : l.Pairwise fun a b => key a ≠ key b) :
    l.Pairwise fun a b => key a < key b := by
  induction l with
  | nil => exact List.Pairwise.nil
  | cons x rest ih =>
    rw [List.pairwise_cons] at h1 h2 ⊢
    exact ⟨fun b hb => lt_of_le_of_ne (h1.1 b hb) (h2.1 b hb), ih h1.2 h2.2⟩

theorem dedup_sortBy_pairwise_lt (key : α → Nat) (l : List α) :
    (dedupByKey key (sortBy key l)).Pairwise fun a b => key a < key b := by
  apply pairwise_lt_of_le_of_ne
  · exact List.Pairwise.sublist (dedupByKeyAux_sublist key (sortBy key l) [])
      (sortBy_sorted key l)
  · exact dedupByKeyAux_pairwise_ne key (sortBy key l) []

theorem combine_rows_from (sensor : List (Nat × ℚ)) (l : List (Nat × String)) :
    ∀ row ∈ l.filterMap
      (fun p => (interpolateAt sensor p.1).map fun v => CombinedRow.mk p.1 p.2 v),
      ∃ p ∈ l, row.timestamp = p.1 ∧ row.equilibration_status = p.2 ∧
        interpolateAt sensor p.1 = some row.temperature := by
  intro row hrow
  obtain ⟨p, hp, hmap⟩ := List.mem_filterMap.mp hrow
  obtain ⟨v, hv, hveq⟩ := Option.map_eq_some'.mp hmap
  subst hveq
  exact ⟨p, hp, rfl, rfl, hv⟩

theorem combine_filterMap_pairwise (sensor : List (Nat × ℚ)) (l : List (Nat × String))
    (h : l.Pairwise fun p q => p.1 < q.1) :
    (l.filterMap
      (fun p => (interpolateAt sensor p.1).map fun v => CombinedRow.mk p.1 p.2 v)).Pairwise
      fun r r2 => r.timestamp < r2.timestamp := by
  induction l with
  | nil => simp
  | cons p rest ih =>
    rw [List.pairwise_cons] at h
    obtain ⟨hhead, hrest⟩ := h
    rw [List.filterMap_cons]
    cases hint : interpolateAt sensor p.1 with
    | none =>
      simp only [Option.map_none']
      exact ih hrest
    | some v =>
      simp only [Option.map_some']
      rw [List.pairwise_cons]
      refine ⟨?_, ih hrest⟩
      intro r2 hr2
      obtain ⟨q, hq, ht, _, _⟩ := combine_rows_from sensor rest r2 hr2
      rw [ht]
      exact hhead q hq

/-- C7: the combined output is sorted strictly ascending by timestamp (so
it is duplicate-free), and every output row's status is the one carried by
the first occurrence of its timestamp in the concatenated calibration
sources (keep-first duplicate policy, by stability of the sort). -/
theorem open_and_combine_sorted_and_keeps_first
    (cal : List (List (Nat × String))) (pico : List (List (Nat × ℚ))) :
    ((open_and_combine_picolog_and_calibration_data cal pico).Pairwise
      fun r r2 => r.timestamp < r2.timestamp) ∧
    (∀ row ∈ open_and_combine_picolog_and_calibration_data cal pico,
      cal.flatten.find? (fun p => p.1 == row.timestamp) =
        some (row.timestamp, row.equilibration_status)) := by
  constructor
  · exact combine_filterMap_pairwise _ _ (dedup_sortBy_pairwise_lt Prod.fst cal.flatten)
  · intro row hrow
    obtain ⟨p, hp, ht, hs, _⟩ := combine_rows_from _ _ row hrow
    have hfind := dedupByKeyAux_mem_find? Prod.fst (sortBy Prod.fst cal.flatten) [] p hp
    rw [sortBy_find?] at hfind
    rw [ht, hs, Prod.mk.eta]
    exact hfind

/-- Witness for C7 at an input whose concatenated calibration sources
contain two rows with the same timestamp: the surviving row carries the
first occurrence's status. -/
theorem open_and_combine_sorted_and_keeps_first_witness :
    ((open_and_combine_picolog_and_calibration_data
        [[(0, "first"), (0, "second"), (1, "third")]] [[(0, 39), (1, 40)]]).Pairwise
      fun r r2 => r.timestamp < r2.timestamp) ∧
    (∀ row ∈ open_and_combine_picolog_and_calibration_data
        [[(0, "first"), (0, "second"), (1, "third")]] [[(0, 39), (1, 40)]],
      ([[(0, "first"), (0, "second"), (1, "third")]] :
          List (List (Nat × String))).flatten.find? (fun p => p.1 == row.timestamp) =
        some (row.timestamp, row.equilibration_status)) :=
  open_and_combine_sorted_and_keeps_first
    [[(0, "first"), (0, "second"), (1, "third")]] [[(0, 39), (1, 40)]]

end OsmoJupyter

namespace OsmoJupyter

/-- C4 (amended): every output row of the combiner sits at a timestamp of
the calibration sources and carries that calibration row's status verbatim
(never numerically interpolated) together with the linear interpolation of
the sensor series there; timestamps present only in the sensor series never
appear; and every calibration timestamp at which the sensor interpolation
is defined (i.e. within the sensor range) does appear. -/
theorem open_and_combine_output_index
    (cal : List (List (Nat × String))) (pico : List (List (Nat × ℚ))) :
    (∀ row ∈ open_and_combine_picolog_and_calibration_data cal pico,
      (row.timestamp, row.equilibration_status) ∈ cal.flatten ∧
      interpolateAt (dedupByKey Prod.fst (sortBy Prod.fst pico.flatten))
          row.timestamp = some row.temperature) ∧
    (∀ t, t ∉ cal.flatten.map Prod.fst →
      ∀ row ∈ open_and_combine_picolog_and_calibration_data cal pico,
        row.timestamp ≠ t) ∧
    (∀ t ∈ cal.flatten.map Prod.fst,
      (interpolateAt (dedupByKey Prod.fst (sortBy Prod.fst pico.flatten)) t).isSome →
      ∃ row ∈ open_and_combine_picolog_and_calibration_data cal pico,
        row.timestamp = t) := by
  refine ⟨?_, ?_, ?_⟩
  · intro row hrow
    obtain ⟨p, hp, ht, hs, hv⟩ := combine_rows_from _ _ row hrow
    have hp2 : p ∈ sortBy Prod.fst cal.flatten :=
      (dedupByKeyAux_sublist Prod.fst _ []).subset hp
    have hp3 : p ∈ cal.flatten := (sortBy_perm Prod.fst cal.flatten).subset hp2
    constructor
    · rw [ht, hs, Prod.mk.eta]
      exact hp3
    · rw [ht]
      exact hv
  · intro t htn row hrow hteq
    obtain ⟨p, hp, ht, _, _⟩ := combine_rows_from _ _ row hrow
    have hp2 : p ∈ sortBy Prod.fst cal.flatten :=
      (dedupByKeyAux_sublist Prod.fst _ []).subset hp
    have hp3 : p ∈ cal.flatten := (sortBy_perm Prod.fst cal.flatten).subset hp2
    exact htn (List.mem_map.mpr ⟨p, hp3, by rw [← ht]; exact hteq⟩)
  · intro t htmem hsome
    have h1 : t ∈ (sortBy Prod.fst cal.flatten).map Prod.fst := by
      rw [List.Perm.mem_iff (List.Perm.map Prod.fst (sortBy_perm Prod.fst cal.flatten))]
      exact htmem
    have h2 : t ∈ (dedupByKey Prod.fst (sortBy Prod.fst cal.flatten)).map Prod.fst :=
      (dedupByKey_keys Prod.fst _ t).mpr h1
    obtain ⟨p, hp, hpt⟩ := List.mem_map.mp h2
    obtain ⟨v, hv⟩ := Option.isSome_iff_exists.mp hsome
    refine ⟨⟨t, p.2, v⟩, ?_, rfl⟩
    apply List.mem_filterMap.mpr
    refine ⟨p, hp, ?_⟩
    rw [hpt, hv]
    rfl

/-- Counterexample for C4 as frozen: a calibration timestamp outside the
sensor series' sampled range produces no output row at all, so the output
index is not exactly the calibration series' timestamps. -/
theorem open_and_combine_drops_unmatched_calibration_timestamp :
    open_and_combine_picolog_and_calibration_data
        [[(0, "waiting")]] [[(1, 39), (2, 40)]] = [] ∧
    (0 : Nat) ∈ ([[((0 : Nat), "waiting")]] :
        List (List (Nat × String))).flatten.map Prod.fst := by
  constructor
  · rfl
  · decide

/-- Witness for C4 (amended) at a calibration timestamp inside the sensor
range: the corresponding output row exists. -/
theorem open_and_combine_output_index_witness :
    ∃ row ∈ open_and_combine_picolog_and_calibration_data
        [[(1, "waiting")]] [[(0, 39), (2, 40)]],
      row.timestamp = 1 :=
  (open_and_combine_output_index [[(1, "waiting")]] [[(0, 39), (2, 40)]]).2.2 1
    (by decide) (by decide)

end OsmoJupyter

namespace OsmoJupyter

theorem interpolateAt_cons2 (t1 t2 t : Nat) (v1 v2 : ℚ) (rest : List (Nat × ℚ)) :
    interpolateAt ((t1, v1) :: (t2, v2) :: rest) t =
      if t < t1 then none
      else if t = t1 then some v1
      else if t ≤ t2 then
        some (v1 + (v2 - v1) * (((t : ℚ) - (t1 : ℚ)) / ((t2 : ℚ) - (t1 : ℚ))))
      else interpolateAt ((t2, v2) :: rest) t := rfl

theorem interpolateAt_single (t1 : Nat) (v1 : ℚ) (t : Nat) :
    interpolateAt [(t1, v1)] t = if t = t1 then some v1 else none := rfl

theorem interpolateAt_between (t1 t2 t : Nat) (v1 v2 : ℚ) (rest : List (Nat × ℚ))
    (h1 : t1 < t) (h2 : t ≤ t2) :
    interpolateAt ((t1, v1) :: (t2, v2) :: rest) t =
      some (v1 + (v2 - v1) * (((t : ℚ) - (t1 : ℚ)) / ((t2 : ℚ) - (t1 : ℚ)))) := by
  rw [interpolateAt_cons2, if_neg (by omega), if_neg (by omega), if_pos h2]

theorem interpolateAt_before (t1 t2 t : Nat) (v1 v2 : ℚ) (rest : List (Nat × ℚ))
    (h : t < t1) :
    interpolateAt ((t1, v1) :: (t2, v2) :: rest) t = none := by
  rw [interpolateAt_cons2, if_pos h]

theorem interpolateAt_beyond (t1 t2 t : Nat) (v1 v2 : ℚ) (rest : List (Nat × ℚ))
    (h : t2 < t) (h2 : t1 < t) :
    interpolateAt ((t1, v1) :: (t2, v2) :: rest) t =
      interpolateAt ((t2, v2) :: rest) t := by
  rw [interpolateAt_cons2, if_neg (by omega), if_neg (by omega), if_neg (by omega)]

theorem sortBy_single (key : α → Nat) (a : α) : sortBy key [a] = [a] := rfl

theorem sortBy_pair (key : α → Nat) (a b : α) (h : key a ≤ key b) :
    sortBy key [a, b] = [a, b] := by
  show insertBy key a (sortBy key [b]) = [a, b]
  rw [sortBy_single]
  show (if key b < key a then b :: insertBy key a [] else a :: b :: []) = [a, b]
  rw [if_neg (not_lt.mpr h)]

theorem dedupByKey_pair [DecidableEq κ] (key : α → κ) (a b : α) (h : key a ≠ key b) :
    dedupByKey key [a, b] = [a, b] := by
  have e1 : dedupByKey key [a, b] =
      if key a ∈ ([] : List κ) then dedupByKeyAux key [] [b]
      else a :: dedupByKeyAux key [key a] [b] := rfl
  rw [e1, if_neg (List.not_mem_nil _)]
  have e2 : dedupByKeyAux key [key a] [b] =
      if key b ∈ [key a] then dedupByKeyAux key [key a] ([] : List α)
      else b :: dedupByKeyAux key (key b :: [key a]) ([] : List α) := rfl
  rw [e2, if_neg (by simpa using fun hc => h hc.symm)]
  rfl

/-- C3: with sensor samples (t0, 39) and (t0+2, 40), a calibration
timestamp at t0+1 combines to exactly 39.5 (linear interpolation over
time), and a calibration timestamp outside [t0, t0+2] produces no output
row at all (no extrapolation beyond the sensor series' sampled range). -/
theorem open_and_combine_linear_interpolation (t0 : Nat) (st : String) :
    (open_and_combine_picolog_and_calibration_data [[(t0 + 1, st)]]
        [[(t0, 39), (t0 + 2, 40)]] = [⟨t0 + 1, st, 79/2⟩]) ∧
    (∀ t s2, (t < t0 ∨ t0 + 2 < t) →
      open_and_combine_picolog_and_calibration_data [[(t, s2)]]
        [[(t0, 39), (t0 + 2, 40)]] = []) := by
  have hsens : dedupByKey Prod.fst (sortBy Prod.fst
      ([[(t0, (39:ℚ)), (t0 + 2, 40)]] : List (List (Nat × ℚ))).flatten) =
      [(t0, 39), (t0 + 2, 40)] := by
    show dedupByKey Prod.fst (sortBy Prod.fst [(t0, (39:ℚ)), (t0 + 2, 40)]) = _
    rw [sortBy_pair Prod.fst _ _ (by show t0 ≤ t0 + 2; omega),
      dedupByKey_pair Prod.fst _ _ (by show t0 ≠ t0 + 2; omega)]
  constructor
  · have hcal : dedupByKey Prod.fst (sortBy Prod.fst
        ([[(t0 + 1, st)]] : List (List (Nat × String))).flatten) = [(t0 + 1, st)] := rfl
    simp only [open_and_combine_picolog_and_calibration_data]
    rw [hcal, hsens, List.filterMap_cons, List.filterMap_nil]
    have hint : interpolateAt [(t0, (39:ℚ)), (t0 + 2, 40)] (t0 + 1) =
        some (39 + (40 - 39) * ((((t0 + 1 : Nat) : ℚ) - ((t0 : Nat) : ℚ)) /
          (((t0 + 2 : Nat) : ℚ) - ((t0 : Nat) : ℚ)))) :=
      interpolateAt_between t0 (t0 + 2) (t0 + 1) 39 40 [] (by omega) (by omega)
    have hval : (39:ℚ) + (40 - 39) * ((((t0 + 1 : Nat) : ℚ) - ((t0 : Nat) : ℚ)) /
        (((t0 + 2 : Nat) : ℚ) - ((t0 : Nat) : ℚ))) = 79/2 := by
      push_cast
      ring_nf
    dsimp only
    rw [hint]
    simp only [Option.map_some']
    rw [hval]
  · intro t s2 h
    have hcal : dedupByKey Prod.fst (sortBy Prod.fst
        ([[(t, s2)]] : List (List (Nat × String))).flatten) = [(t, s2)] := rfl
    simp only [open_and_combine_picolog_and_calibration_data]
    rw [hcal, hsens, List.filterMap_cons, List.filterMap_nil]
    dsimp only
    have hnone : interpolateAt [(t0, (39:ℚ)), (t0 + 2, 40)] t = none := by
      rcases h with h | h
      · exact interpolateAt_before _ _ _ _ _ _ h
      · rw [interpolateAt_beyond _ _ _ _ _ _ h (by omega), interpolateAt_single,
          if_neg (by omega)]
    rw [hnone]
    rfl

/-- Witness for C3 at t0 = 0: interpolation yields 39.5 at timestamp 1,
and the out-of-range calibration timestamp 5 yields no row. -/
theorem open_and_combine_linear_interpolation_witness :
    (open_and_combine_picolog_and_calibration_data [[(1, "waiting")]]
        [[(0, 39), (2, 40)]] = [⟨1, "waiting", 79/2⟩]) ∧
    open_and_combine_picolog_and_calibration_data [[(5, "waiting")]]
        [[(0, 39), (2, 40)]] = [] :=
  ⟨(open_and_combine_linear_interpolation 0 "waiting").1,
    (open_and_combine_linear_interpolation 0 "waiting").2 5 "waiting"
      (Or.inr (by omega))⟩

end OsmoJupyter

namespace OsmoJupyter

/-- C9: pivoting a well-formed measurement table (each row's region and
metric among the requested names, and the (timestamp, image, region,
metric) key functional, as the §3 data model requires) and then
un-pivoting by grouping the region/metric cells back recovers exactly the
original set of (timestamp, image, region, metric, value) tuples — the
pivot loses no information. -/
theorem pivot_round_trip (df : List Measurement) (R M : List String)
    (hroi : ∀ m ∈ df, m.roi ∈ R)
    (hmet : ∀ m ∈ df, m.metric ∈ M)
    (hfun : ∀ m ∈ df, ∀ m2 ∈ df, m.timestamp = m2.timestamp → m.image = m2.image →
      m.roi = m2.roi → m.metric = m2.metric → m.value = m2.value) :
    ∀ m, m ∈ unpivot_pivoted_results
        (pivot_process_experiment_results_on_ROI df R M) ↔ m ∈ df := by
  intro m
  constructor
  · intro hm
    unfold unpivot_pivoted_results at hm
    rw [List.mem_flatten] at hm
    obtain ⟨sub, hsub, hmsub⟩ := hm
    rw [List.mem_map] at hsub
    obtain ⟨r, hr, rfl⟩ := hsub
    rw [List.mem_filterMap] at hmsub
    obtain ⟨c, hc, hcm⟩ := hmsub
    obtain ⟨v, hv, hveq⟩ := Option.map_eq_some'.mp hcm
    unfold pivot_process_experiment_results_on_ROI at hr
    rw [List.mem_map] at hr
    obtain ⟨m0, hm0, rfl⟩ := hr
    dsimp only at hc hv hveq
    unfold pivotCells at hc
    rw [List.mem_flatten] at hc
    obtain ⟨sub2, hsub2, hcsub⟩ := hc
    rw [List.mem_map] at hsub2
    obtain ⟨metric, hmetric, rfl⟩ := hsub2
    rw [List.mem_map] at hcsub
    obtain ⟨roi, hroi2, rfl⟩ := hcsub
    have hv2 : lookupValue df m0.timestamp m0.image roi metric = some v := hv
    unfold lookupValue at hv2
    obtain ⟨m1, hfind, hval⟩ := Option.map_eq_some'.mp hv2
    have hm1df : m1 ∈ df := List.mem_of_find?_eq_some hfind
    have hpred := List.find?_some hfind
    simp only [Bool.and_eq_true, beq_iff_eq] at hpred
    obtain ⟨⟨⟨hpt, hpi⟩, hpr⟩, hpm⟩ := hpred
    have heq : Measurement.mk m0.timestamp m0.image roi metric v = m1 := by
      obtain ⟨mt, mi, mr, mm, mv⟩ := m1
      simp only [Measurement.mk.injEq]
      exact ⟨hpt.symm, hpi.symm, hpr.symm, hpm.symm, hval.symm⟩
    rw [← hveq]
    dsimp only
    rw [heq]
    exact hm1df
  · intro hm
    have hkey : measurementKey m ∈ (dedupByKey measurementKey df).map measurementKey :=
      (dedupByKey_keys measurementKey df _).mpr (List.mem_map.mpr ⟨m, hm, rfl⟩)
    obtain ⟨m0, hm0, hkeq⟩ := List.mem_map.mp hkey
    have hm0s : m0 ∈ sortBy (fun m2 => m2.timestamp) (dedupByKey measurementKey df) :=
      ((sortBy_perm _ _).mem_iff).mpr hm0
    have hkt : m0.timestamp = m.timestamp := congrArg Prod.fst hkeq
    have hki : m0.image = m.image := congrArg Prod.snd hkeq
    have hlkp : lookupValue df m.timestamp m.image m.roi m.metric = some m.value := by
      unfold lookupValue
      have hex : (df.find? fun m2 => m2.timestamp == m.timestamp && m2.image == m.image
          && m2.roi == m.roi && m2.metric == m.metric).isSome := by
        rw [List.find?_isSome]
        exact ⟨m, hm, by simp⟩
      obtain ⟨m1, hfind⟩ := Option.isSome_iff_exists.mp hex
      have hm1df := List.mem_of_find?_eq_some hfind
      have hpred := List.find?_some hfind
      simp only [Bool.and_eq_true, beq_iff_eq] at hpred
      obtain ⟨⟨⟨hpt, hpi⟩, hpr⟩, hpm⟩ := hpred
      rw [hfind]
      simp only [Option.map_some']
      rw [hfun m1 hm1df m hm hpt hpi hpr hpm]
    have hc : (m.roi, m.metric, lookupValue df m.timestamp m.image m.roi m.metric) ∈
        pivotCells df m.timestamp m.image R M := by
      unfold pivotCells
      rw [List.mem_flatten]
      refine ⟨R.map fun roi =>
        (roi, m.metric, lookupValue df m.timestamp m.image roi m.metric),
        List.mem_map.mpr ⟨m.metric, hmet m hm, rfl⟩, ?_⟩
      exact List.mem_map.mpr ⟨m.roi, hroi m hm, rfl⟩
    unfold unpivot_pivoted_results
    rw [List.mem_flatten]
    refine ⟨_, List.mem_map.mpr ⟨_,
      List.mem_map.mpr ⟨m0, hm0s, rfl⟩, rfl⟩, ?_⟩
    rw [List.mem_filterMap]
    refine ⟨(m.roi, m.metric, lookupValue df m.timestamp m.image m.roi m.metric), ?_, ?_⟩
    · dsimp only
      rw [hkt, hki]
      exact hc
    · dsimp only
      rw [hkt, hki, hlkp]
      simp only [Option.map_some']

/-- Witness for C9 at the long-format equivalent of the test measurement
table (integer-scaled values), instantiated at its first row. -/
theorem pivot_round_trip_witness :
    Measurement.mk 0 "image-0.jpeg" "ROI 0" "r_msorm" 5 ∈
      unpivot_pivoted_results (pivot_process_experiment_results_on_ROI
        [⟨0, "image-0.jpeg", "ROI 0", "r_msorm", 5⟩,
          ⟨0, "image-0.jpeg", "ROI 0", "g_msorm", 4⟩,
          ⟨0, "image-0.jpeg", "ROI 1", "r_msorm", 4⟩,
          ⟨0, "image-0.jpeg", "ROI 1", "g_msorm", 5⟩,
          ⟨2, "image-1.jpeg", "ROI 0", "r_msorm", 3⟩,
          ⟨2, "image-1.jpeg", "ROI 0", "g_msorm", 6⟩,
          ⟨2, "image-1.jpeg", "ROI 1", "r_msorm", 6⟩,
          ⟨2, "image-1.jpeg", "ROI 1", "g_msorm", 3⟩]
        ["ROI 0", "ROI 1"] ["r_msorm", "g_msorm"]) ↔
    Measurement.mk 0 "image-0.jpeg" "ROI 0" "r_msorm" 5 ∈
      [⟨0, "image-0.jpeg", "ROI 0", "r_msorm", 5⟩,
        ⟨0, "image-0.jpeg", "ROI 0", "g_msorm", 4⟩,
        ⟨0, "image-0.jpeg", "ROI 1", "r_msorm", 4⟩,
        ⟨0, "image-0.jpeg", "ROI 1", "g_msorm", 5⟩,
        ⟨2, "image-1.jpeg", "ROI 0", "r_msorm", 3⟩,
        ⟨2, "image-1.jpeg", "ROI 0", "g_msorm", 6⟩,
        ⟨2, "image-1.jpeg", "ROI 1", "r_msorm", 6⟩,
        ⟨2, "image-1.jpeg", "ROI 1", "g_msorm", 3⟩] :=
  (pivot_round_trip _ _ _ (by decide) (by decide) (by decide)) _

end OsmoJupyter

namespace OsmoJupyter

/-- C5: in the orchestrator, the sensor value attached to a surviving
measurement timestamp comes from the calibration-timestamp-restricted
combined timeline, not from the raw sensor samples: at the test scenario
the measurement timestamp 2 coincides exactly with the raw sample (2, 40)
and is not itself a calibration timestamp, yet the emitted value is the
combined-timeline interpolation 39.75 = 159/4, not the raw 40. -/
theorem orchestrator_uses_combined_timeline :
    open_and_combine_and_filter_source_data testCalibrationLog testPicologData
        testExperimentImages = [⟨"image-1.jpeg", 2, 159/4⟩] ∧
    (2, (40 : ℚ)) ∈ testPicologData.flatten ∧
    (2 : Nat) ∉ testCalibrationLog.flatten.map Prod.fst ∧
    (159/4 : ℚ) ≠ 40 := by
  refine ⟨?_, by decide, by decide, by norm_num⟩
  norm_num +decide [open_and_combine_and_filter_source_data,
    open_and_combine_picolog_and_calibration_data, testCalibrationLog,
    testPicologData, testExperimentImages, sortBy, insertBy, dedupByKey, dedupByKeyAux,
    interpolateAt, List.filterMap, get_equilibration_boundaries, boundariesAux,
    isEquilibrated, filter_equilibrated_images, List.filter]

/-- Counterexample for C10: the two generations' orchestrators are not
extensionally equal — on the shared test scenario they return different
temperature values for image-1. -/
theorem generations_orchestrators_differ :
    combine_open_and_combine_and_filter_source_data testCalibrationLog testPicologData
        testExperimentImages ≠
      open_and_combine_and_filter_source_data testCalibrationLog testPicologData
        testExperimentImages := by
  have h1 : combine_open_and_combine_and_filter_source_data testCalibrationLog
      testPicologData testExperimentImages = [⟨"image-1.jpeg", 2, 40⟩] := by
    norm_num +decide [combine_open_and_combine_and_filter_source_data,
      open_and_combine_picolog_and_calibration_data, testCalibrationLog,
      testPicologData, testExperimentImages, sortBy, insertBy, dedupByKey,
      dedupByKeyAux, interpolateAt, List.filterMap, get_equilibration_boundaries,
      boundariesAux, isEquilibrated, filter_equilibrated_images, List.filter]
  have h2 : open_and_combine_and_filter_source_data testCalibrationLog
      testPicologData testExperimentImages = [⟨"image-1.jpeg", 2, 159/4⟩] := by
    norm_num +decide [open_and_combine_and_filter_source_data,
      open_and_combine_picolog_and_calibration_data, testCalibrationLog,
      testPicologData, testExperimentImages, sortBy, insertBy, dedupByKey,
      dedupByKeyAux, interpolateAt, List.filterMap, get_equilibration_boundaries,
      boundariesAux, isEquilibrated, filter_equilibrated_images, List.filter]
  intro hc
  rw [h1, h2] at hc
  simp only [List.cons.injEq, OutputRow.mk.injEq, and_true, true_and] at hc
  exact absurd hc (by norm_num)

/-- C10 (amended): the two API generations share the modelled boundary
detector, pivoter, filter and combiner, but their orchestrators are not
behaviorally equivalent — on the shared test scenario the dataset
generation emits temperature 39.75 (combined-timeline interpolation) while
the dataset.combine generation emits 40 (raw-sensor interpolation). -/
theorem generations_orchestrator_divergence :
    open_and_combine_and_filter_source_data testCalibrationLog testPicologData
        testExperimentImages = [⟨"image-1.jpeg", 2, 159/4⟩] ∧
    combine_open_and_combine_and_filter_source_data testCalibrationLog testPicologData
        testExperimentImages = [⟨"image-1.jpeg", 2, 40⟩] ∧
    (159/4 : ℚ) ≠ 40 := by
  refine ⟨?_, ?_, by norm_num⟩
  · norm_num +decide [open_and_combine_and_filter_source_data,
      open_and_combine_picolog_and_calibration_data, testCalibrationLog,
      testPicologData, testExperimentImages, sortBy, insertBy, dedupByKey,
      dedupByKeyAux, interpolateAt, List.filterMap, get_equilibration_boundaries,
      boundariesAux, isEquilibrated, filter_equilibrated_images, List.filter]
  · norm_num +decide [combine_open_and_combine_and_filter_source_data,
      open_and_combine_picolog_and_calibration_data, testCalibrationLog,
      testPicologData, testExperimentImages, sortBy, insertBy, dedupByKey,
      dedupByKeyAux, interpolateAt, List.filterMap, get_equilibration_boundaries,
      boundariesAux, isEquilibrated, filter_equilibrated_images, List.filter]

end OsmoJupyter
